import Mathlib

/-!
Verification of the LucAstra retrieval core (BM25 inverted index, vector index
with cosine similarity, embedding cache, search service) against its design
specification.  The Rust sources in `src/search` and `src/llm` are shallowly
embedded: `HashMap`s become association lists, `HashSet`s become duplicate-free
lists, `f32` arithmetic becomes exact real arithmetic, and fallible operations
return `Except`.
-/

set_option maxHeartbeats 1000000

namespace LucAstra

/-- Association-list lookup, modelling `HashMap::get`. -/
def lookupA {α β : Type} [DecidableEq α] : List (α × β) → α → Option β
  | [], _ => none
  | (k', v) :: rest, k => if k' = k then some v else lookupA rest k

/-- Association-list insert-or-replace, modelling `HashMap::insert`. -/
def insertA {α β : Type} [DecidableEq α] : List (α × β) → α → β → List (α × β)
  | [], k, v => [(k, v)]
  | (k', v') :: rest, k, v =>
      if k' = k then (k, v) :: rest else (k', v') :: insertA rest k v

/-- Set insert (no duplicates), modelling `HashSet::insert`. -/
def insertSet {α : Type} [DecidableEq α] (l : List α) (x : α) : List α :=
  if x ∈ l then l else l ++ [x]

namespace Tokenizer

/-- Embeds `Tokenizer::tokenize`: lower-case, split on any non-alphanumeric
character, keep only pieces that are nonempty and longer than 2 bytes. -/
def tokenize (text : String) : List String :=
  (((text.data.map Char.toLower).splitOnP (fun c => !c.isAlphanum)).map
      (fun cs => String.mk cs)).filter
    (fun s => !s.isEmpty && s.utf8ByteSize > 2)

/-- Embeds `Tokenizer::is_stopword`: the `matches!` over fixed string literals. -/
def is_stopword (word : String) : Bool :=
  word == "the" || word == "a" || word == "an" || word == "and" || word == "or" ||
  word == "is" || word == "in" || word == "at" || word == "to" || word == "for" ||
  word == "of" || word == "on" || word == "with" || word == "by" || word == "from"

/-- Embeds `Tokenizer::remove_stopwords`. -/
def remove_stopwords (tokens : List String) : List String :=
  tokens.filter (fun t => !is_stopword t)

end Tokenizer

/-- BM25 parameter `K1` from `index.rs`. -/
def K1 : ℝ := 1.5

/-- BM25 parameter `B` from `index.rs`. -/
def B : ℝ := 0.75

/-- Embeds the `BM25Index` struct.  The stored `avg_doc_len` field is recomputed
from `documents` after every insertion and reset to `0` by `new`/`clear`, so it
always equals the derived value `BM25Index.avg_doc_len` below and is not stored
separately here. -/
structure BM25Index where
  documents : List (String × List String)
  term_docs : List (String × List String)
  term_freqs : List (String × List (String × Nat))

namespace BM25Index

/-- Embeds `BM25Index::new`. -/
def new : BM25Index := ⟨[], [], []⟩

/-- The average document length, as recomputed at the end of every
`add_document` (`total_len as f32 / documents.len() as f32`); equal to `0` in
the empty states where the source stores the literal `0.0`. -/
noncomputable def avg_doc_len (s : BM25Index) : ℝ :=
  let total_len : Nat := (s.documents.map (fun d => d.2.length)).sum
  (total_len : ℝ) / (s.documents.length : ℝ)

/-- Embeds `BM25Index::add_document` (the source always returns `Ok(())`, so the
result wrapper is elided). -/
def add_document (s : BM25Index) (doc_id : String) (content : String) : BM25Index :=
  let tokens := Tokenizer.remove_stopwords (Tokenizer.tokenize content)
  let documents := insertA s.documents doc_id tokens
  let term_docs := tokens.foldl
    (fun (td : List (String × List String)) token =>
      insertA td token (insertSet ((lookupA td token).getD []) doc_id)) s.term_docs
  let term_count := tokens.foldl
    (fun (m : List (String × Nat)) token =>
      insertA m token (((lookupA m token).getD 0) + 1)) []
  let term_freqs := term_count.foldl
    (fun (tf : List (String × List (String × Nat))) p =>
      insertA tf p.1 (insertA ((lookupA tf p.1).getD []) doc_id p.2)) s.term_freqs
  ⟨documents, term_docs, term_freqs⟩

/-- Embeds `BM25Index::idf`. -/
noncomputable def idf (s : BM25Index) (doc_count : Nat) : ℝ :=
  let n : ℝ := (s.documents.length : ℝ)
  Real.log ((n - (doc_count : ℝ) + 0.5) / ((doc_count : ℝ) + 0.5) + 1)

/-- Embeds `BM25Index::bm25_score`. -/
noncomputable def bm25_score (term_freq idf doc_len avg_doc_len : ℝ) : ℝ :=
  let numerator := term_freq * (K1 + 1)
  let denominator := term_freq + K1 * (1 - B + B * (doc_len / avg_doc_len))
  idf * (numerator / denominator)

/-- The raw term frequency looked up by `search` for one token and document. -/
def raw_tf (s : BM25Index) (token doc_id : String) : Nat :=
  ((lookupA s.term_freqs token).bind (fun m => lookupA m doc_id)).getD 0

/-- The document length looked up by `search` for one document. -/
def raw_doc_len (s : BM25Index) (doc_id : String) : Nat :=
  ((lookupA s.documents doc_id).map List.length).getD 0

/-- The score accumulator loop of `BM25Index::search`: for each query token
with postings, add the BM25 contribution of every posted document into the
`scores` map. -/
noncomputable def score_list (s : BM25Index) (tokens : List String) : List (String × ℝ) :=
  tokens.foldl
    (fun scores token =>
      match lookupA s.term_docs token with
      | none => scores
      | some docs =>
        let idfv := s.idf docs.length
        docs.foldl
          (fun sc doc_id =>
            let contrib := bm25_score (s.raw_tf token doc_id : ℝ) idfv
              (s.raw_doc_len doc_id : ℝ) s.avg_doc_len
            insertA sc doc_id (((lookupA sc doc_id).getD 0) + contrib)) scores) []

/-- The descending sort-by-score of `search` (`sort_by(|a, b| b.1.partial_cmp(&a.1))`). -/
noncomputable def rank (l : List (String × ℝ)) : List (String × ℝ) :=
  l.insertionSort (fun a b => b.2 ≤ a.2)

/-- Embeds `BM25Index::search`.  The source's `Result` is modelled by `Except`;
every path of the source returns `Ok`. -/
noncomputable def search (s : BM25Index) (query : String) (top_k : Nat) :
    Except String (List (String × ℝ)) :=
  let tokens := Tokenizer.remove_stopwords (Tokenizer.tokenize query)
  if tokens.isEmpty then .ok []
  else .ok ((rank (s.score_list tokens)).take top_k)

/-- Embeds `BM25Index::clear`. -/
def clear (_ : BM25Index) : BM25Index := ⟨[], [], []⟩

end BM25Index

/-- Builds a `BM25Index` by a sequence of `add_document` calls from `new`.
Since `clear` returns the `new` state, these are exactly the reachable states. -/
def buildBM25 (ops : List (String × String)) : BM25Index :=
  ops.foldl (fun s p => s.add_document p.1 p.2) BM25Index.new

/-- Well-formedness of the inverted postings: every `term_docs` entry is a
duplicate-free list of known document keys.  Maintained by every
`add_document`. -/
def BM25Index.PostingsWF (s : BM25Index) : Prop :=
  ∀ t docs, lookupA s.term_docs t = some docs →
    docs.Nodup ∧ ∀ id ∈ docs, id ∈ s.documents.map Prod.fst

/-- Embeds the `VectorError` enum of `vector.rs`. -/
inductive VectorError where
  | IndexError (msg : String)
  | DimensionMismatch (expected got : Nat)
  | EmptyEmbeddings
deriving DecidableEq

/-- Embeds the `VectorDocument` struct (the `f32` entries become reals). -/
structure VectorDocument where
  id : Nat
  path : String
  embedding : List ℝ
  snippet : String

/-- Embeds the `VectorSearchResult` struct. -/
structure VectorSearchResult where
  path : String
  score : ℝ
  snippet : String

/-- Embeds the `VectorIndex` struct. -/
structure VectorIndex where
  documents : List VectorDocument
  dimensions : Option Nat
  next_id : Nat

/-- Embeds `cosine_similarity`.  The source asserts the two lengths are equal
and panics otherwise; the panic is modelled by `none`. -/
noncomputable def cosine_similarity (a b : List ℝ) : Option ℝ :=
  if a.length = b.length then
    let dot_product := ((a.zip b).map (fun p => p.1 * p.2)).sum
    let norm_a := Real.sqrt ((a.map (fun x => x * x)).sum)
    let norm_b := Real.sqrt ((b.map (fun x => x * x)).sum)
    if norm_a = 0 ∨ norm_b = 0 then some 0
    else some (dot_product / (norm_a * norm_b))
  else none

namespace VectorIndex

/-- Embeds `VectorIndex::new`. -/
def new : VectorIndex := ⟨[], none, 0⟩

/-- Embeds `VectorIndex::add_document`; returns the source's result together
with the post-state. -/
def add_document (s : VectorIndex) (path : String) (embedding : List ℝ)
    (snippet : String) : Except VectorError Nat × VectorIndex :=
  if embedding.isEmpty then (.error .EmptyEmbeddings, s)
  else
    match s.dimensions with
    | some dims =>
      if embedding.length ≠ dims then
        (.error (.DimensionMismatch dims embedding.length), s)
      else
        (.ok s.next_id,
          ⟨s.documents ++ [⟨s.next_id, path, embedding, snippet⟩], some dims,
            s.next_id + 1⟩)
    | none =>
        (.ok s.next_id,
          ⟨s.documents ++ [⟨s.next_id, path, embedding, snippet⟩],
            some embedding.length, s.next_id + 1⟩)

/-- The scoring loop of `VectorIndex::search`: cosine similarity of every
stored document against the query.  A `none` result models a panic of the
`assert_eq!` inside `cosine_similarity`. -/
noncomputable def scoreDocs (docs : List VectorDocument) (q : List ℝ) :
    Option (List (ℝ × VectorDocument)) :=
  match docs with
  | [] => some []
  | doc :: rest =>
    match cosine_similarity doc.embedding q, scoreDocs rest q with
    | some c, some scored => some ((c, doc) :: scored)
    | _, _ => none

/-- Embeds `VectorIndex::search`.  The outer `Option` models panic-freedom
(`none` = a panic inside the scoring loop); the inner `Except` is the source's
`VectorResult`. -/
noncomputable def search (s : VectorIndex) (query_embedding : List ℝ) (k : Nat) :
    Option (Except VectorError (List VectorSearchResult)) :=
  if query_embedding.isEmpty then some (.error .EmptyEmbeddings)
  else
    let score := fun (_ : Unit) =>
      (scoreDocs s.documents query_embedding).map (fun scored =>
        Except.ok
          (((scored.insertionSort (fun a b => b.1 ≤ a.1)).take k).map
            (fun p => ⟨p.2.path, p.1, p.2.snippet⟩)))
    match s.dimensions with
    | some dims =>
      if query_embedding.length ≠ dims then
        some (.error (.DimensionMismatch dims query_embedding.length))
      else score ()
    | none => score ()

/-- Embeds `VectorIndex::clear`. -/
def clear (_ : VectorIndex) : VectorIndex := ⟨[], none, 0⟩

/-- The states of a `VectorIndex` reachable through the public operations
(`search` does not mutate the index). -/
inductive Reachable : VectorIndex → Prop where
  | new : Reachable new
  | add (s : VectorIndex) (path : String) (embedding : List ℝ) (snippet : String) :
      Reachable s → Reachable (s.add_document path embedding snippet).2
  | clear (s : VectorIndex) : Reachable s → Reachable s.clear

end VectorIndex

/-- Embeds the `SearchResult` struct of `lucastra_core::command` as used by
`SearchService` (path, BM25 score, snippet). -/
structure SearchResult where
  path : String
  score : ℝ
  snippet : String

/-- Embeds the `SearchService` struct: a BM25 index plus a path → raw-content
map. -/
structure SearchService where
  index : BM25Index
  documents : List (String × String)

namespace SearchService

/-- Embeds `SearchService::new`. -/
def new : SearchService := ⟨BM25Index.new, []⟩

/-- Embeds `SearchService::index_document` (the source always returns `Ok`). -/
def index_document (svc : SearchService) (path content : String) : SearchService :=
  ⟨svc.index.add_document path content, insertA svc.documents path content⟩

/-- The snippet built by `SearchService::search` for one hit: the first 200
characters (`chars().take(200)`) of the stored content, or the literal `"..."`
if no content is stored for the path. -/
def snippet_of (docs : List (String × String)) (path : String) : String :=
  match lookupA docs path with
  | some c => String.mk (c.data.take 200)
  | none => "..."

/-- Embeds `SearchService::search`. -/
noncomputable def search (svc : SearchService) (query : String) (top_k : Nat) :
    Except String (List SearchResult) :=
  (svc.index.search query top_k).map (fun results =>
    results.map (fun pr => ⟨pr.1, pr.2, snippet_of svc.documents pr.1⟩))

/-- Embeds `SearchService::clear`. -/
def clear (_ : SearchService) : SearchService := ⟨BM25Index.new, []⟩

end SearchService

/-- Builds a `SearchService` by a sequence of `index_document` calls from
`new`; since `clear` returns the `new` state these are the reachable states. -/
def buildService (ops : List (String × String)) : SearchService :=
  ops.foldl (fun svc p => svc.index_document p.1 p.2) SearchService.new

/-- Modelled from the spec: "the original content stored for that path by
`index_document`" — the content of the most recent `index_document` call for
the path, if any.  Used to state the snippet claim independently of the
implementation's internal map. -/
def lastIndexedContent (ops : List (String × String)) (path : String) : Option String :=
  ((ops.reverse).find? (fun p => p.1 = path)).map Prod.snd

/-- Embeds the `CacheEntry` struct of `cache.rs` (the `u64` hash becomes a
`Nat` reduced mod `2 ^ 64`, the `i64` timestamp an `Int`, the `f32` entries
reals; JSON serialization round-trips these fields and is modelled as the
identity). -/
structure CacheEntry where
  text_hash : Nat
  embedding : List ℝ
  model : String
  timestamp : Int

/-- Embeds the `EmbeddingCache` struct.  The cache directory (one JSON file per
64-bit hash) is modelled as the association list `disk`; files that do not
deserialize to a `CacheEntry` are ignored by every operation that reads the
directory and are not modelled. -/
structure EmbeddingCache where
  memory_cache : List (Nat × List ℝ)
  disk : List (Nat × CacheEntry)
  max_memory_entries : Nat

namespace EmbeddingCache

/-- Models `EmbeddingCache::hash_text` (`DefaultHasher` over the text then the
model name).  The claims depend only on this being a deterministic pure
function of the pair, so the 64-bit SipHash is replaced by a simple 64-bit
polynomial hash. -/
def hash_text (text model : String) : Nat :=
  let h1 := text.data.foldl (fun h c => (h * 31 + c.toNat + 1) % 2 ^ 64) 0
  model.data.foldl (fun h c => (h * 31 + c.toNat + 1) % 2 ^ 64) h1

/-- Embeds `EmbeddingCache::trim_memory_cache`: when over capacity, remove
`len - max` entries in map-iteration order (modelled as the front of the
association list). -/
def trim_memory_cache (m : List (Nat × List ℝ)) (maxEntries : Nat) :
    List (Nat × List ℝ) :=
  if m.length > maxEntries then m.drop (m.length - maxEntries) else m

/-- Embeds `EmbeddingCache::new` on a directory whose current contents are
`disk`: the memory tier starts empty and the capacity is the source's default
of 1000. -/
def new (disk : List (Nat × CacheEntry)) : EmbeddingCache := ⟨[], disk, 1000⟩

/-- Embeds `EmbeddingCache::get`, returning the source's `CacheResult` (always
`Ok` when the filesystem reads succeed, which is the case modelled here)
together with the post-state. -/
def get (c : EmbeddingCache) (text model : String) :
    Except String (Option (List ℝ)) × EmbeddingCache :=
  let hash := hash_text text model
  match lookupA c.memory_cache hash with
  | some embedding => (.ok (some embedding), c)
  | none =>
    match lookupA c.disk hash with
    | some entry =>
      let mem := trim_memory_cache (insertA c.memory_cache hash entry.embedding)
        c.max_memory_entries
      (.ok (some entry.embedding), ⟨mem, c.disk, c.max_memory_entries⟩)
    | none => (.ok none, c)

/-- Embeds `EmbeddingCache::put`; `now` stands for
`chrono::Utc::now().timestamp()`. -/
def put (c : EmbeddingCache) (now : Int) (text model : String)
    (embedding : List ℝ) : EmbeddingCache :=
  let hash := hash_text text model
  let mem := trim_memory_cache (insertA c.memory_cache hash embedding)
    c.max_memory_entries
  ⟨mem, insertA c.disk hash ⟨hash, embedding, model, now⟩, c.max_memory_entries⟩

/-- Embeds `EmbeddingCache::clear_old`: delete every on-disk entry whose
timestamp is older than `now - days * 86400` and return how many were
removed; `&self` access leaves the memory tier untouched. -/
def clear_old (c : EmbeddingCache) (now : Int) (days : Nat) : Nat × EmbeddingCache :=
  let cutoff := now - (days : Int) * 86400
  let scan := c.disk.foldl
    (fun (acc : Nat × List (Nat × CacheEntry)) p =>
      if p.2.timestamp < cutoff then (acc.1 + 1, acc.2) else (acc.1, acc.2 ++ [p]))
    (0, [])
  (scan.1, ⟨c.memory_cache, scan.2, c.max_memory_entries⟩)

end EmbeddingCache

/-! ### Helper lemmas about the association-list and set primitives -/

theorem lookupA_insertA {α β : Type} [DecidableEq α] (l : List (α × β)) (k k' : α)
    (v : β) : lookupA (insertA l k v) k' = if k = k' then some v else lookupA l k' := by
  induction l with
  | nil => simp [insertA, lookupA]
  | cons hd tl ih =>
    by_cases h1 : hd.1 = k
    · simp only [insertA, if_pos h1, lookupA]
      by_cases h2 : k = k'
      · simp [h2]
      · have h3 : ¬hd.1 = k' := h1 ▸ h2
        simp [h2, h3]
    · simp only [insertA, if_neg h1, lookupA, ih]
      by_cases h2 : hd.1 = k'
      · have hne : ¬k = k' := fun he => h1 (he ▸ h2)
        simp [h2, hne]
      · simp [h2]

theorem lookupA_insertA_self {α β : Type} [DecidableEq α] (l : List (α × β)) (k : α)
    (v : β) : lookupA (insertA l k v) k = some v := by
  rw [lookupA_insertA]; simp

theorem mem_fst_insertA {α β : Type} [DecidableEq α] (l : List (α × β)) (k x : α)
    (v : β) : x ∈ (insertA l k v).map Prod.fst ↔ x = k ∨ x ∈ l.map Prod.fst := by
  induction l with
  | nil => simp [insertA, eq_comm]
  | cons hd tl ih =>
    by_cases h1 : hd.1 = k
    · have he : insertA (hd :: tl) k v = (k, v) :: tl := by
        simp [insertA, h1]
      rw [he]
      simp only [List.map_cons, List.mem_cons]
      rw [h1]
      tauto
    · simp only [insertA, if_neg h1, List.map_cons, List.mem_cons, ih]
      tauto

theorem mem_insertSet {α : Type} [DecidableEq α] (l : List α) (x y : α) :
    y ∈ insertSet l x ↔ y ∈ l ∨ y = x := by
  by_cases h : x ∈ l
  · simp only [insertSet, if_pos h]
    constructor
    · exact Or.inl
    · rintro (hy | rfl)
      · exact hy
      · exact h
  · simp [insertSet, if_neg h]

theorem nodup_insertSet {α : Type} [DecidableEq α] (l : List α) (x : α)
    (h : l.Nodup) : (insertSet l x).Nodup := by
  by_cases hx : x ∈ l
  · simpa [insertSet, if_pos hx] using h
  · simp only [insertSet, if_neg hx]
    refine List.Nodup.append h (List.nodup_singleton x) ?_
    intro a ha hax
    rw [List.mem_singleton] at hax
    subst hax
    exact hx ha

theorem length_le_sum_of_mem {α : Type} (f : α → Nat) (l : List α) (e : α)
    (he : e ∈ l) : f e ≤ (l.map f).sum := by
  induction l with
  | nil => cases he
  | cons hd tl ih =>
    rcases List.mem_cons.mp he with rfl | htl
    · simp only [List.map_cons, List.sum_cons]; omega
    · have := ih htl
      simp only [List.map_cons, List.sum_cons]; omega

theorem nodup_subset_length_le {α : Type} [DecidableEq α] {l₁ l₂ : List α}
    (hnd : l₁.Nodup) (hsub : ∀ x ∈ l₁, x ∈ l₂) : l₁.length ≤ l₂.length := by
  calc l₁.length = l₁.toFinset.card := (List.toFinset_card_of_nodup hnd).symm
    _ ≤ l₂.toFinset.card := Finset.card_le_card (fun x hx =>
        List.mem_toFinset.mpr (hsub x (List.mem_toFinset.mp hx)))
    _ ≤ l₂.length := l₂.toFinset_card_le

theorem is_stopword_eq_mem_set : ∀ t : String, Tokenizer.is_stopword t =
    decide (t ∈ ["a", "an", "the", "and", "or", "is", "in", "at", "to", "for", "of",
      "on", "with", "by", "from"]) := by
  intro t
  rw [Bool.eq_iff_iff]
  simp [Tokenizer.is_stopword]
  tauto

theorem clear_old_scan (cutoff : Int) :
    ∀ (disk : List (Nat × CacheEntry)) (n : Nat) (kept : List (Nat × CacheEntry)),
      disk.foldl
        (fun (acc : Nat × List (Nat × CacheEntry)) p =>
          if p.2.timestamp < cutoff then (acc.1 + 1, acc.2) else (acc.1, acc.2 ++ [p]))
        (n, kept) =
      (n + (disk.filter (fun p => p.2.timestamp < cutoff)).length,
        kept ++ disk.filter (fun p => ¬(p.2.timestamp < cutoff))) := by
  intro disk
  induction disk with
  | nil => intro n kept; simp
  | cons hd tl ih =>
    intro n kept
    by_cases h : hd.2.timestamp < cutoff
    · simp only [List.foldl_cons, if_pos h, ih, List.filter_cons, h]
      simp [Nat.add_assoc, Nat.add_comm 1]
    · simp only [List.foldl_cons, if_neg h, ih, List.filter_cons, h]
      simp [List.append_assoc]

theorem add_document_dims_inv (s : VectorIndex) (path : String) (e : List ℝ) (snip : String)
    (ih : ∀ doc ∈ s.documents, s.dimensions = some doc.embedding.length) :
    ∀ doc ∈ (s.add_document path e snip).2.documents,
      (s.add_document path e snip).2.dimensions = some doc.embedding.length := by
  unfold VectorIndex.add_document
  by_cases he : e.isEmpty
  · simp only [if_pos he]
    exact ih
  · simp only [if_neg he]
    cases hdim : s.dimensions with
    | some dims =>
      by_cases hlen : e.length = dims
      · simp only [if_neg (show ¬(e.length ≠ dims) from fun hc => hc hlen)]
        intro doc hd
        rcases List.mem_append.mp hd with h | h
        · rw [← hdim]
          exact ih doc h
        · rcases List.mem_singleton.mp h with rfl
          simp [hlen]
      · simp only [if_pos hlen]
        intro doc hd
        exact hdim ▸ ih doc hd
    | none =>
      intro doc hd
      rcases List.mem_append.mp hd with h | h
      · exact absurd (hdim ▸ ih doc h) (by simp)
      · rcases List.mem_singleton.mp h with rfl
        rfl

theorem reachable_dims {s : VectorIndex} (h : s.Reachable) :
    ∀ doc ∈ s.documents, s.dimensions = some doc.embedding.length := by
  induction h with
  | new => intro doc hd; simp [VectorIndex.new] at hd
  | clear s' h' ih => intro doc hd; simp [VectorIndex.clear] at hd
  | add s' path e snip h' ih => exact add_document_dims_inv s' path e snip ih

theorem cosine_similarity_isSome {a b : List ℝ} (h : a.length = b.length) :
    (cosine_similarity a b).isSome := by
  simp only [cosine_similarity, if_pos h]
  split <;> simp

theorem scoreDocs_isSome (q : List ℝ) :
    ∀ docs : List VectorDocument,
      (∀ doc ∈ docs, (cosine_similarity doc.embedding q).isSome) →
      (VectorIndex.scoreDocs docs q).isSome := by
  intro docs
  induction docs with
  | nil => intro _; simp [VectorIndex.scoreDocs]
  | cons doc rest ih =>
    intro h
    obtain ⟨c, hc⟩ := Option.isSome_iff_exists.mp (h doc (List.mem_cons_self doc rest))
    obtain ⟨scored, hscored⟩ := Option.isSome_iff_exists.mp
      (ih (fun d hd => h d (List.mem_cons_of_mem doc hd)))
    simp [VectorIndex.scoreDocs, hc, hscored]

theorem sumsq_nonneg (a : List ℝ) : 0 ≤ (a.map (fun x => x * x)).sum := by
  refine List.sum_nonneg ?_
  intro x hx
  obtain ⟨y, _, rfl⟩ := List.mem_map.mp hx
  exact mul_self_nonneg y

theorem cs_step (x y A b S : ℝ) (hA : 0 ≤ A) (hB : 0 ≤ b) (hS : S ^ 2 ≤ A * b) :
    (x * y + S) ^ 2 ≤ (x * x + A) * (y * y + b) := by
  by_cases hA0 : A = 0
  · have hS0 : S = 0 := by
      have h1 : S ^ 2 ≤ 0 := by rw [hA0] at hS; linarith [hS]
      nlinarith [sq_nonneg S]
    subst hS0
    rw [hA0]
    nlinarith [sq_nonneg (x * y), mul_nonneg (mul_self_nonneg x) hB]
  · have hApos : 0 < A := lt_of_le_of_ne hA (fun h => hA0 h.symm)
    nlinarith [sq_nonneg (x * S - y * A),
      mul_le_mul_of_nonneg_left hS (sq_nonneg x),
      mul_le_mul_of_nonneg_left hS hA,
      mul_nonneg hA hB, sq_nonneg y, hApos]

theorem list_cauchy_schwarz :
    ∀ (a b : List ℝ),
      (((a.zip b).map (fun p => p.1 * p.2)).sum) ^ 2 ≤
        (a.map (fun x => x * x)).sum * (b.map (fun x => x * x)).sum := by
  intro a
  induction a with
  | nil => intro b; simp
  | cons x a' ih =>
    intro b
    cases b with
    | nil =>
      simp only [List.zip_nil_right, List.map_nil, List.sum_nil, List.map_cons]
      nlinarith [sumsq_nonneg (x :: a')]
    | cons y b' =>
      simp only [List.zip_cons_cons, List.map_cons, List.sum_cons]
      exact cs_step x y _ _ _ (sumsq_nonneg a') (sumsq_nonneg b') (ih b')

theorem dot_self_eq_sumsq : ∀ a : List ℝ,
    ((a.zip a).map (fun p => p.1 * p.2)).sum = (a.map (fun x => x * x)).sum := by
  intro a
  induction a with
  | nil => simp
  | cons x a' ih => simp [ih]

theorem sumsq_map_neg (a : List ℝ) :
    ((a.map (fun x => -x)).map (fun x => x * x)).sum = (a.map (fun x => x * x)).sum := by
  induction a with
  | nil => simp
  | cons x a' ih => simp only [List.map_cons, List.sum_cons, neg_mul_neg, ih]

theorem dot_map_neg (a : List ℝ) :
    ((a.zip (a.map (fun x => -x))).map (fun p => p.1 * p.2)).sum =
      -(a.map (fun x => x * x)).sum := by
  induction a with
  | nil => simp
  | cons x a' ih => simp [ih]; ring

theorem buildService_documents :
    ∀ (ops : List (String × String)) (svc : SearchService),
      (ops.foldl (fun svc p => svc.index_document p.1 p.2) svc).documents =
        ops.foldl (fun d q => insertA d q.1 q.2) svc.documents := by
  intro ops
  induction ops with
  | nil => intro svc; rfl
  | cons o rest ih =>
    intro svc
    simp only [List.foldl_cons]
    rw [ih]
    rfl

theorem lookupA_fold_insert :
    ∀ (ops : List (String × String)) (l : List (String × String)) (p : String),
      lookupA (ops.foldl (fun d q => insertA d q.1 q.2) l) p =
        match (ops.reverse).find? (fun q => q.1 = p) with
        | some q => some q.2
        | none => lookupA l p := by
  intro ops
  induction ops with
  | nil => intro l p; simp
  | cons o rest ih =>
    intro l p
    simp only [List.foldl_cons, List.reverse_cons, List.find?_append]
    rw [ih]
    cases hfind : (rest.reverse).find? (fun q => q.1 = p) with
    | some q => simp [hfind]
    | none =>
      simp only [hfind, Option.orElse_none, Option.none_orElse]
      rw [lookupA_insertA]
      by_cases ho : o.1 = p <;> simp [List.find?_cons, List.find?_nil, ho]

theorem lookup_buildService (ops : List (String × String)) (p : String) :
    lookupA (buildService ops).documents p = lastIndexedContent ops p := by
  unfold buildService lastIndexedContent
  rw [buildService_documents, lookupA_fold_insert]
  cases hfind : (ops.reverse).find? (fun q => q.1 = p) <;>
    simp [hfind, SearchService.new, lookupA]

theorem bm25_search_isOk (s : BM25Index) (q : String) (k : Nat) :
    ∃ res, s.search q k = .ok res := by
  unfold BM25Index.search
  by_cases ht : (Tokenizer.remove_stopwords (Tokenizer.tokenize q)).isEmpty
  · exact ⟨[], by rw [if_pos ht]⟩
  · exact ⟨_, by rw [if_neg ht]⟩

theorem mem_fst_insert_fold {β : Type} :
    ∀ (docs : List String) (acc : List (String × β)) (doc_id : String)
      (f : List (String × β) → String → β),
      doc_id ∈ ((docs.foldl (fun sc d => insertA sc d (f sc d)) acc).map Prod.fst) →
      doc_id ∈ acc.map Prod.fst ∨ doc_id ∈ docs := by
  intro docs
  induction docs with
  | nil => intro acc doc_id f h; exact Or.inl h
  | cons d rest ih =>
    intro acc doc_id f h
    simp only [List.foldl_cons] at h
    rcases ih _ doc_id f h with h2 | h2
    · rcases (mem_fst_insertA acc d doc_id (f acc d)).mp h2 with rfl | h3
      · exact Or.inr (List.mem_cons_self _ _)
      · exact Or.inl h3
    · exact Or.inr (List.mem_cons_of_mem _ h2)

theorem mem_fst_score_fold (s : BM25Index) :
    ∀ (tokens : List String) (acc : List (String × ℝ)) (doc_id : String),
      doc_id ∈ ((tokens.foldl
        (fun scores token =>
          match lookupA s.term_docs token with
          | none => scores
          | some docs =>
            let idfv := s.idf docs.length
            docs.foldl
              (fun sc doc_id2 =>
                let contrib := BM25Index.bm25_score (s.raw_tf token doc_id2 : ℝ) idfv
                  (s.raw_doc_len doc_id2 : ℝ) s.avg_doc_len
                insertA sc doc_id2 (((lookupA sc doc_id2).getD 0) + contrib)) scores) acc).map
            Prod.fst) →
      doc_id ∈ acc.map Prod.fst ∨ ∃ token ∈ tokens, ∃ docs,
        lookupA s.term_docs token = some docs ∧ doc_id ∈ docs := by
  intro tokens
  induction tokens with
  | nil => intro acc doc_id h; exact Or.inl h
  | cons t rest ih =>
    intro acc doc_id h
    simp only [List.foldl_cons] at h
    cases hlk : lookupA s.term_docs t with
    | none =>
      rw [hlk] at h
      rcases ih _ doc_id h with h2 | ⟨tok, htok, docs, hdocs, hmem⟩
      · exact Or.inl h2
      · exact Or.inr ⟨tok, List.mem_cons_of_mem _ htok, docs, hdocs, hmem⟩
    | some docs =>
      rw [hlk] at h
      rcases ih _ doc_id h with h2 | ⟨tok, htok, docs2, hdocs2, hmem2⟩
      · rcases mem_fst_insert_fold docs acc doc_id _ h2 with h3 | h3
        · exact Or.inl h3
        · exact Or.inr ⟨t, List.mem_cons_self _ _, docs, hlk, h3⟩
      · exact Or.inr ⟨tok, List.mem_cons_of_mem _ htok, docs2, hdocs2, hmem2⟩

theorem td_fold_inv (P : String → Prop) (doc_id : String) (hdoc : P doc_id) :
    ∀ (tokens : List String) (td : List (String × List String)),
      (∀ t docs, lookupA td t = some docs → docs.Nodup ∧ ∀ id ∈ docs, P id) →
      ∀ t docs,
        lookupA (tokens.foldl (fun td2 token =>
          insertA td2 token (insertSet ((lookupA td2 token).getD []) doc_id)) td) t =
            some docs →
        docs.Nodup ∧ ∀ id ∈ docs, P id := by
  intro tokens
  induction tokens with
  | nil => intro td hinv t docs h; exact hinv t docs h
  | cons tok rest ih =>
    intro td hinv t docs h
    simp only [List.foldl_cons] at h
    refine ih _ ?_ t docs h
    intro t2 docs2 h2
    rw [lookupA_insertA] at h2
    by_cases he : tok = t2
    · rw [if_pos he] at h2
      cases h2
      cases hold : lookupA td tok with
      | none =>
        simp only [hold, Option.getD_none]
        constructor
        · exact nodup_insertSet [] doc_id List.nodup_nil
        · intro id hid
          rcases (mem_insertSet [] doc_id id).mp hid with h3 | rfl
          · cases h3
          · exact hdoc
      | some old =>
        simp only [hold, Option.getD_some]
        obtain ⟨hnd, hmem⟩ := hinv tok old hold
        constructor
        · exact nodup_insertSet old doc_id hnd
        · intro id hid
          rcases (mem_insertSet old doc_id id).mp hid with h3 | rfl
          · exact hmem id h3
          · exact hdoc
    · rw [if_neg he] at h2
      exact hinv t2 docs2 h2

theorem add_document_postingsWF (s : BM25Index) (doc_id content : String)
    (h : s.PostingsWF) : (s.add_document doc_id content).PostingsWF := by
  intro t docs hlk
  exact td_fold_inv
    (fun id => id ∈ ((insertA s.documents doc_id
      (Tokenizer.remove_stopwords (Tokenizer.tokenize content))).map Prod.fst))
    doc_id
    ((mem_fst_insertA s.documents doc_id doc_id _).mpr (Or.inl rfl))
    (Tokenizer.remove_stopwords (Tokenizer.tokenize content))
    s.term_docs
    (fun t2 docs2 h2 => by
      obtain ⟨hnd, hmem⟩ := h t2 docs2 h2
      exact ⟨hnd, fun id hid =>
        (mem_fst_insertA s.documents doc_id id _).mpr (Or.inr (hmem id hid))⟩)
    t docs hlk

theorem buildBM25_postingsWF (ops : List (String × String)) :
    (buildBM25 ops).PostingsWF := by
  have hgen : ∀ (l : List (String × String)) (s : BM25Index), s.PostingsWF →
      (l.foldl (fun s p => s.add_document p.1 p.2) s).PostingsWF := by
    intro l
    induction l with
    | nil => intro s hs; exact hs
    | cons o rest ih =>
      intro s hs
      simp only [List.foldl_cons]
      exact ih _ (add_document_postingsWF s o.1 o.2 hs)
  refine hgen ops BM25Index.new ?_
  intro t docs h
  cases h

/-! ### Claim theorems -/

/-- C1 (code bug): re-indexing the same document id with different content
leaves stale postings in the inverted index.  After `add_document("doc1",
"apple")` and `add_document("doc1", "banana")` the stored token list is
`["banana"]`, yet `term_docs` and `term_freqs` still hold a posting of
`"doc1"` for `"apple"` — a term occurring only in the first content — and
`search("apple")` still returns `doc1`, contradicting the spec's requirement
that only the latest content's postings remain. -/
theorem bm25_reindex_keeps_stale_postings :
    lookupA (buildBM25 [("doc1", "apple"), ("doc1", "banana")]).documents "doc1" =
        some ["banana"] ∧
    lookupA (buildBM25 [("doc1", "apple"), ("doc1", "banana")]).term_docs "apple" =
        some ["doc1"] ∧
    lookupA (buildBM25 [("doc1", "apple"), ("doc1", "banana")]).term_freqs "apple" =
        some [("doc1", 1)] ∧
    ((buildBM25 [("doc1", "apple"), ("doc1", "banana")]).search "apple" 10).map
        (List.map Prod.fst) = .ok ["doc1"] :=
  ⟨by decide, by decide, by decide, by rfl⟩

/-- C5 (counterexample): the claimed 14-word stopword set is not the set the
code filters: `"an"` is outside the claimed set, so the claim demands that it
pass through unchanged, but `remove_stopwords ["an"]` removes it. -/
theorem remove_stopwords_spec_set_cex :
    Tokenizer.remove_stopwords ["an"] ≠
      ["an"].filter (fun t => !decide (t ∈ ["a", "the", "and", "or", "is", "in", "at",
        "to", "for", "of", "on", "with", "by", "from"])) := by decide

/-- C5 (amended): `remove_stopwords` filters exactly the fixed closed set
{a, an, the, and, or, is, in, at, to, for, of, on, with, by, from} — the
claimed set plus `"an"` — removing precisely the terms in that set and passing
every other term through unchanged, preserving order. -/
theorem remove_stopwords_filters_exact_set :
    ∀ tokens : List String,
      Tokenizer.remove_stopwords tokens =
        tokens.filter (fun t => !decide (t ∈ ["a", "an", "the", "and", "or", "is", "in",
          "at", "to", "for", "of", "on", "with", "by", "from"])) := by
  intro tokens
  unfold Tokenizer.remove_stopwords
  refine List.filter_congr ?_
  intro x _
  rw [is_stopword_eq_mem_set]

/-- C6: `put(text, model, emb)` followed by `get(text, model)` on a fresh
`EmbeddingCache` instance over the same cache directory returns
`Ok(Some(emb))` with the stored embedding. -/
theorem embeddingCache_round_trip :
    ∀ (c : EmbeddingCache) (now : Int) (text model : String) (emb : List ℝ),
      ((EmbeddingCache.new ((c.put now text model emb).disk)).get text model).1 =
        .ok (some emb) := by
  intro c now text model emb
  simp [EmbeddingCache.get, EmbeddingCache.put, EmbeddingCache.new, lookupA,
    lookupA_insertA_self]

/-- C8: `clear_old(days)` removes exactly the on-disk entries whose timestamp
is older than `now - days * 86400`, returns the number removed, and leaves the
in-memory tier unchanged; any embedding present in the memory map is still
returned by `get` afterwards, regardless of the purged disk tier. -/
theorem embeddingCache_clear_old_frame :
    ∀ (mem : List (Nat × List ℝ)) (disk : List (Nat × CacheEntry)) (maxE : Nat)
      (now : Int) (days : Nat),
      (EmbeddingCache.clear_old ⟨mem, disk, maxE⟩ now days).1 =
          (disk.filter (fun p => p.2.timestamp < now - (days : Int) * 86400)).length ∧
      (EmbeddingCache.clear_old ⟨mem, disk, maxE⟩ now days).2.disk =
          disk.filter (fun p => ¬(p.2.timestamp < now - (days : Int) * 86400)) ∧
      (EmbeddingCache.clear_old ⟨mem, disk, maxE⟩ now days).2.memory_cache = mem ∧
      (∀ (text model : String) (emb : List ℝ) (mem2 : List (Nat × List ℝ)),
        ((⟨insertA mem2 (EmbeddingCache.hash_text text model) emb,
            (EmbeddingCache.clear_old ⟨mem, disk, maxE⟩ now days).2.disk, maxE⟩ :
              EmbeddingCache).get text model).1 = .ok (some emb)) := by
  intro mem disk maxE now days
  refine ⟨?_, ?_, ?_, ?_⟩
  · simp [EmbeddingCache.clear_old, clear_old_scan]
  · simp [EmbeddingCache.clear_old, clear_old_scan]
  · simp [EmbeddingCache.clear_old]
  · intro text model emb mem2
    simp [EmbeddingCache.get, lookupA_insertA_self]

/-- C2: in every reachable `VectorIndex` state all stored embeddings have the
same length (the dimensionality fixed at the first successful insert); an
`add_document` or `search` whose vector length differs from the recorded
dimensionality returns `DimensionMismatch{expected, got}` with the correct
field values and (for `add_document`) leaves the state — in particular the
stored document count — unchanged; and a successful `add_document` appends the
supplied embedding verbatim, never truncated or padded. -/
theorem vectorIndex_dimension_invariant :
    (∀ s : VectorIndex, s.Reachable → ∀ d1 ∈ s.documents, ∀ d2 ∈ s.documents,
        d1.embedding.length = d2.embedding.length)
  ∧ (∀ (s : VectorIndex) (dims : Nat) (path : String) (e : List ℝ) (snip : String),
        s.dimensions = some dims → e ≠ [] → e.length ≠ dims →
        s.add_document path e snip = (.error (.DimensionMismatch dims e.length), s))
  ∧ (∀ (s : VectorIndex) (dims : Nat) (q : List ℝ) (k : Nat),
        s.dimensions = some dims → q ≠ [] → q.length ≠ dims →
        s.search q k = some (.error (.DimensionMismatch dims q.length)))
  ∧ (∀ (s : VectorIndex) (path : String) (e : List ℝ) (snip : String),
        e ≠ [] → (s.dimensions = none ∨ s.dimensions = some e.length) →
        s.add_document path e snip =
          (.ok s.next_id,
            ⟨s.documents ++ [⟨s.next_id, path, e, snip⟩], some e.length,
              s.next_id + 1⟩)) := by
  refine ⟨?_, ?_, ?_, ?_⟩
  · intro s hs d1 h1 d2 h2
    have e1 := reachable_dims hs d1 h1
    have e2 := reachable_dims hs d2 h2
    rw [e1] at e2
    injection e2
  · intro s dims path e snip hdim hne hlen
    simp [VectorIndex.add_document, List.isEmpty_iff, hne, hdim, hlen]
  · intro s dims q k hdim hne hlen
    simp [VectorIndex.search, List.isEmpty_iff, hne, hdim, hlen]
  · intro s path e snip hne hdim
    rcases hdim with h | h
    · simp [VectorIndex.add_document, List.isEmpty_iff, hne, h]
    · simp [VectorIndex.add_document, List.isEmpty_iff, hne, h]

/-- C2 witness: inserting `[0.1, 0.2, 0.3]` and then `[0.1, 0.2]` yields
`DimensionMismatch{expected: 3, got: 2}` and the index still holds exactly one
document. -/
theorem vectorIndex_dimension_invariant_witness :
    ((VectorIndex.new.add_document "p1" [0.1, 0.2, 0.3] "s1").2.add_document "p2"
        [0.1, 0.2] "s2").1 = .error (.DimensionMismatch 3 2) ∧
    ((VectorIndex.new.add_document "p1" [0.1, 0.2, 0.3] "s1").2.add_document "p2"
        [0.1, 0.2] "s2").2.documents.length = 1 := by
  have h := vectorIndex_dimension_invariant.2.1
      (VectorIndex.new.add_document "p1" [0.1, 0.2, 0.3] "s1").2
      3 "p2" [0.1, 0.2] "s2" rfl (by simp) (by decide)
  constructor
  · rw [h]
    rfl
  · rw [h]
    rfl

/-- C10: in every reachable `VectorIndex` state, each stored document's
embedding length equals the index's recorded dimensionality, so for every
query the equal-length assertion inside `cosine_similarity` holds for every
stored embedding and `search` never panics (it always produces a result, `Ok`
or a domain error — never the `none` that models a panic). -/
theorem vectorIndex_search_no_panic :
    ∀ s : VectorIndex, s.Reachable →
      (∀ doc ∈ s.documents, s.dimensions = some doc.embedding.length) ∧
      (∀ (q : List ℝ) (k : Nat), (s.search q k).isSome) := by
  intro s hs
  refine ⟨reachable_dims hs, ?_⟩
  intro q k
  by_cases hq : q.isEmpty
  · simp [VectorIndex.search, hq]
  · cases hdim : s.dimensions with
    | some dims =>
      by_cases hlen : q.length ≠ dims
      · simp [VectorIndex.search, hq, hdim, hlen]
      · have hsd := scoreDocs_isSome q s.documents (fun doc hdoc => by
          have hd := reachable_dims hs doc hdoc
          rw [hdim] at hd
          refine cosine_similarity_isSome ?_
          injection hd with hd'
          omega)
        obtain ⟨scored, hscored⟩ := Option.isSome_iff_exists.mp hsd
        simp [VectorIndex.search, hq, hdim, hlen, hscored]
    | none =>
      have hdocs : s.documents = [] := by
        cases hd : s.documents with
        | nil => rfl
        | cons d tl =>
          have := reachable_dims hs d (by rw [hd]; exact List.mem_cons_self d tl)
          rw [hdim] at this
          cases this
      simp [VectorIndex.search, hq, hdim, hdocs, VectorIndex.scoreDocs]

/-- C10 witness: after one insert, a search with a query of the wrong
dimension still returns a result (an error value) rather than panicking. -/
theorem vectorIndex_search_no_panic_witness :
    ((VectorIndex.new.add_document "p" [1, 2] "x").2.search [5] 0).isSome :=
  (vectorIndex_search_no_panic _
    (VectorIndex.Reachable.add _ _ _ _ VectorIndex.Reachable.new)).2 [5] 0

/-- C4: `cosine_similarity` returns 0 (a value, not a panic and not NaN — the
model has no NaN) whenever either input has norm 0; for equal-length inputs
with nonzero norms the value lies in `[-1, 1]`; `cosine_similarity(a, a)` is
within `1e-6` of 1; vectors with zero dot product give a value within `1e-6`
of 0; and opposite vectors give a value within `1e-6` of -1. -/
theorem cosine_similarity_spec :
    (∀ a b : List ℝ, a.length = b.length →
        Real.sqrt ((a.map (fun x => x * x)).sum) = 0 ∨
          Real.sqrt ((b.map (fun x => x * x)).sum) = 0 →
        cosine_similarity a b = some 0)
  ∧ (∀ a b : List ℝ, a.length = b.length →
        Real.sqrt ((a.map (fun x => x * x)).sum) ≠ 0 →
        Real.sqrt ((b.map (fun x => x * x)).sum) ≠ 0 →
        ∃ c, cosine_similarity a b = some c ∧ -1 ≤ c ∧ c ≤ 1)
  ∧ (∀ a : List ℝ, Real.sqrt ((a.map (fun x => x * x)).sum) ≠ 0 →
        ∃ c, cosine_similarity a a = some c ∧ |c - 1| ≤ 1 / 1000000)
  ∧ (∀ a b : List ℝ, a.length = b.length →
        ((a.zip b).map (fun p => p.1 * p.2)).sum = 0 →
        ∃ c, cosine_similarity a b = some c ∧ |c| ≤ 1 / 1000000)
  ∧ (∀ a : List ℝ, Real.sqrt ((a.map (fun x => x * x)).sum) ≠ 0 →
        ∃ c, cosine_similarity a (a.map (fun x => -x)) = some c ∧
          |c + 1| ≤ 1 / 1000000) := by
  have hzero : ∀ a b : List ℝ, a.length = b.length →
      Real.sqrt ((a.map (fun x => x * x)).sum) = 0 ∨
        Real.sqrt ((b.map (fun x => x * x)).sum) = 0 →
      cosine_similarity a b = some 0 := by
    intro a b hlen hz
    simp only [cosine_similarity, if_pos hlen]
    rw [if_pos hz]
  have hval : ∀ a b : List ℝ, a.length = b.length →
      Real.sqrt ((a.map (fun x => x * x)).sum) ≠ 0 →
      Real.sqrt ((b.map (fun x => x * x)).sum) ≠ 0 →
      cosine_similarity a b = some ((((a.zip b).map (fun p => p.1 * p.2)).sum) /
        (Real.sqrt ((a.map (fun x => x * x)).sum) *
          Real.sqrt ((b.map (fun x => x * x)).sum))) := by
    intro a b hlen ha hb
    simp only [cosine_similarity, if_pos hlen]
    rw [if_neg (by push_neg; exact ⟨ha, hb⟩)]
  refine ⟨hzero, ?_, ?_, ?_, ?_⟩
  · intro a b hlen ha hb
    refine ⟨_, hval a b hlen ha hb, ?_⟩
    have hA := sumsq_nonneg a
    have hB := sumsq_nonneg b
    have hsa : 0 < Real.sqrt ((a.map (fun x => x * x)).sum) :=
      lt_of_le_of_ne (Real.sqrt_nonneg _) (Ne.symm ha)
    have hsb : 0 < Real.sqrt ((b.map (fun x => x * x)).sum) :=
      lt_of_le_of_ne (Real.sqrt_nonneg _) (Ne.symm hb)
    have hm : 0 < Real.sqrt ((a.map (fun x => x * x)).sum) *
        Real.sqrt ((b.map (fun x => x * x)).sum) := mul_pos hsa hsb
    have hcs := list_cauchy_schwarz a b
    have habs : |(((a.zip b).map (fun p => p.1 * p.2)).sum)| ≤
        Real.sqrt ((a.map (fun x => x * x)).sum) *
          Real.sqrt ((b.map (fun x => x * x)).sum) := by
      have h2 : (((a.zip b).map (fun p => p.1 * p.2)).sum) ^ 2 ≤
          (Real.sqrt ((a.map (fun x => x * x)).sum) *
            Real.sqrt ((b.map (fun x => x * x)).sum)) ^ 2 := by
        rw [mul_pow, Real.sq_sqrt hA, Real.sq_sqrt hB]
        exact hcs
      calc |(((a.zip b).map (fun p => p.1 * p.2)).sum)|
          = Real.sqrt ((((a.zip b).map (fun p => p.1 * p.2)).sum) ^ 2) :=
            (Real.sqrt_sq_eq_abs _).symm
        _ ≤ Real.sqrt ((Real.sqrt ((a.map (fun x => x * x)).sum) *
              Real.sqrt ((b.map (fun x => x * x)).sum)) ^ 2) := Real.sqrt_le_sqrt h2
        _ = _ := by rw [Real.sqrt_sq hm.le]
    have hdiv : |(((a.zip b).map (fun p => p.1 * p.2)).sum) /
        (Real.sqrt ((a.map (fun x => x * x)).sum) *
          Real.sqrt ((b.map (fun x => x * x)).sum))| ≤ 1 := by
      rw [abs_div, abs_of_pos hm]
      exact (div_le_one hm).mpr habs
    exact abs_le.mp hdiv
  · intro a ha
    have hA := sumsq_nonneg a
    have hA0 : (a.map (fun x => x * x)).sum ≠ 0 := by
      intro h
      exact ha (by rw [h, Real.sqrt_zero])
    refine ⟨_, hval a a rfl ha ha, ?_⟩
    rw [dot_self_eq_sumsq, Real.mul_self_sqrt hA, div_self hA0]
    norm_num
  · intro a b hlen hdot
    by_cases hz : Real.sqrt ((a.map (fun x => x * x)).sum) = 0 ∨
        Real.sqrt ((b.map (fun x => x * x)).sum) = 0
    · refine ⟨0, hzero a b hlen hz, by norm_num⟩
    · push_neg at hz
      refine ⟨_, hval a b hlen hz.1 hz.2, ?_⟩
      rw [hdot, zero_div]
      norm_num
  · intro a ha
    have hA := sumsq_nonneg a
    have hA0 : (a.map (fun x => x * x)).sum ≠ 0 := by
      intro h
      exact ha (by rw [h, Real.sqrt_zero])
    have hlen : a.length = (a.map (fun x => -x)).length := by simp
    have hb : Real.sqrt (((a.map (fun x => -x)).map (fun x => x * x)).sum) ≠ 0 := by
      rw [sumsq_map_neg]
      exact ha
    refine ⟨_, hval a (a.map (fun x => -x)) hlen ha hb, ?_⟩
    rw [dot_map_neg, sumsq_map_neg, Real.mul_self_sqrt hA, neg_div, div_self hA0]
    norm_num

/-- C4 witness: the spec's sample vectors — identical `[1, 0]`, orthogonal
`[1, 0]`/`[0, 1]`, opposite `[1, 0]`/`[-1, 0]`, and a zero-norm input. -/
theorem cosine_similarity_spec_witness :
    (∃ c, cosine_similarity [1, 0] [1, 0] = some c ∧ |c - 1| ≤ 1 / 1000000) ∧
    (∃ c, cosine_similarity [1, 0] [0, 1] = some c ∧ |c| ≤ 1 / 1000000) ∧
    (∃ c, cosine_similarity [1, 0] ([1, 0].map (fun x => -x)) = some c ∧
      |c + 1| ≤ 1 / 1000000) ∧
    (∃ c, cosine_similarity [1, 0] [0, 1] = some c ∧ -1 ≤ c ∧ c ≤ 1) ∧
    cosine_similarity [0, 0] [0, 1] = some 0 := by
  have h1 : Real.sqrt ((([1, 0] : List ℝ).map (fun x => x * x)).sum) ≠ 0 := by
    norm_num [Real.sqrt_one]
  have h2 : Real.sqrt ((([0, 1] : List ℝ).map (fun x => x * x)).sum) ≠ 0 := by
    norm_num [Real.sqrt_one]
  refine ⟨cosine_similarity_spec.2.2.1 [1, 0] h1,
    cosine_similarity_spec.2.2.2.1 [1, 0] [0, 1] rfl (by norm_num),
    cosine_similarity_spec.2.2.2.2 [1, 0] h1,
    cosine_similarity_spec.2.1 [1, 0] [0, 1] rfl h1 h2,
    cosine_similarity_spec.1 [0, 0] [0, 1] rfl (Or.inl (by norm_num [Real.sqrt_eq_zero]))⟩

/-- C9: `SearchService::search` always succeeds, and every returned hit's
snippet is the first 200 characters (character count, not bytes) of the
content most recently stored for that path by `index_document`, or the
literal `"..."` when no content is stored for the path. -/
theorem searchService_snippet_spec :
    ∀ (ops : List (String × String)) (query : String) (top_k : Nat),
      (∃ hits, (buildService ops).search query top_k = .ok hits) ∧
      (buildService ops).search query top_k =
        ((buildService ops).index.search query top_k).map (fun results =>
          results.map (fun pr =>
            ⟨pr.1, pr.2,
              match lastIndexedContent ops pr.1 with
              | some c => String.mk (c.data.take 200)
              | none => "..."⟩)) := by
  intro ops query top_k
  constructor
  · obtain ⟨res, hres⟩ := bm25_search_isOk (buildService ops).index query top_k
    refine ⟨res.map (fun pr => ⟨pr.1, pr.2,
      SearchService.snippet_of (buildService ops).documents pr.1⟩), ?_⟩
    unfold SearchService.search
    rw [hres]
    rfl
  · unfold SearchService.search
    congr 1
    funext results
    congr 1
    funext pr
    congr 1
    rw [SearchService.snippet_of, lookup_buildService]

/-- C7 (counterexample): after `add_document("d7", "kiwi")` and
`add_document("d7", "melon")`, document `d7`'s current token list `["melon"]`
contains no term of the (non-empty after filtering) query `"kiwi"`, yet the
search ranking contains an entry for `d7` — because a stale posting survives
re-indexing — so a document containing none of the query terms is not always
excluded. -/
theorem bm25_search_nonmatching_doc_cex :
    Tokenizer.remove_stopwords (Tokenizer.tokenize "kiwi") = ["kiwi"] ∧
    lookupA (buildBM25 [("d7", "kiwi"), ("d7", "melon")]).documents "d7" =
      some ["melon"] ∧
    ("kiwi" ∉ (["melon"] : List String)) ∧
    ((buildBM25 [("d7", "kiwi"), ("d7", "melon")]).search "kiwi" 10).map
      (List.map Prod.fst) = .ok ["d7"] :=
  ⟨by decide, by decide, by decide, by rfl⟩

/-- C7 (amended): `search` returns `Ok` with an empty result (not an error)
whenever the query is empty after tokenization and stopword filtering; and a
document for which no query term has a posting (no `term_docs` entry lists it)
receives no entry in the returned ranking — it is excluded, not ranked last
with score 0.  (The original "contains none of the query terms" phrasing fails
only for stale postings left by re-indexing, the C1 code bug.) -/
theorem bm25_search_empty_and_exclusion :
    (∀ (s : BM25Index) (query : String) (top_k : Nat),
        (Tokenizer.remove_stopwords (Tokenizer.tokenize query)).isEmpty →
        s.search query top_k = .ok [])
  ∧ (∀ (s : BM25Index) (query : String) (top_k : Nat) (doc_id : String)
        (hits : List (String × ℝ)),
        (∀ token ∈ Tokenizer.remove_stopwords (Tokenizer.tokenize query),
          ∀ docs, lookupA s.term_docs token = some docs → doc_id ∉ docs) →
        s.search query top_k = .ok hits →
        doc_id ∉ hits.map Prod.fst) := by
  constructor
  · intro s query top_k ht
    unfold BM25Index.search
    rw [if_pos ht]
  · intro s query top_k doc_id hits hnone hok hmem
    unfold BM25Index.search at hok
    by_cases ht : (Tokenizer.remove_stopwords (Tokenizer.tokenize query)).isEmpty
    · rw [if_pos ht] at hok
      cases hok
      simp at hmem
    · rw [if_neg ht] at hok
      cases hok
      have h1 : doc_id ∈ ((BM25Index.rank (s.score_list (Tokenizer.remove_stopwords
          (Tokenizer.tokenize query)))).map Prod.fst) :=
        List.map_subset _ (List.take_subset _ _) hmem
      have hperm := List.perm_insertionSort (fun a b : String × ℝ => b.2 ≤ a.2)
        (s.score_list (Tokenizer.remove_stopwords (Tokenizer.tokenize query)))
      have h2 : doc_id ∈ ((s.score_list (Tokenizer.remove_stopwords
          (Tokenizer.tokenize query))).map Prod.fst) :=
        ((hperm.map Prod.fst).mem_iff).mp h1
      rcases mem_fst_score_fold s (Tokenizer.remove_stopwords (Tokenizer.tokenize query))
          [] doc_id h2 with h3 | ⟨tok, htok, docs, hdocs, hmem3⟩
      · simp at h3
      · exact hnone tok htok docs hdocs hmem3

/-- C7 witness: the query `"the"` filters to nothing and returns `Ok([])` on
any index; and on an index holding only `d1 → "apple"`, the query `"banana"`
has no postings, so `d1` is absent from the (empty) ranking. -/
theorem bm25_search_empty_and_exclusion_witness :
    BM25Index.new.search "the" 5 = .ok [] ∧
    ("d1" ∉ (([] : List (String × ℝ)).map Prod.fst)) := by
  constructor
  · exact bm25_search_empty_and_exclusion.1 BM25Index.new "the" 5 (by decide)
  · refine bm25_search_empty_and_exclusion.2 (buildBM25 [("d1", "apple")]) "banana" 10
      "d1" [] ?_ ?_
    · intro token htok docs hdocs
      have he : Tokenizer.remove_stopwords (Tokenizer.tokenize "banana") = ["banana"] := by
        decide
      rw [he] at htok
      rcases List.mem_singleton.mp htok with rfl
      have hn : lookupA (buildBM25 [("d1", "apple")]).term_docs "banana" = none := by
        decide
      rw [hn] at hdocs
      simp at hdocs
    · rfl

/-- C3: every per-document-per-term BM25 contribution computed by `search` —
`bm25_score` applied to the looked-up term frequency, the IDF
`ln((N - n + 0.5) / (n + 0.5) + 1)` of the posting count, the looked-up
document length, and the average document length — is non-negative, for any
query term occurring in at least one currently stored document. -/
theorem bm25_per_term_score_nonneg :
    ∀ (ops : List (String × String)) (token doc_id : String) (docs : List String),
      lookupA (buildBM25 ops).term_docs token = some docs →
      doc_id ∈ docs →
      (∃ e ∈ (buildBM25 ops).documents, token ∈ e.2) →
      0 ≤ BM25Index.bm25_score ((buildBM25 ops).raw_tf token doc_id : ℝ)
          ((buildBM25 ops).idf docs.length)
          ((buildBM25 ops).raw_doc_len doc_id : ℝ)
          (buildBM25 ops).avg_doc_len := by
  intro ops token doc_id docs hlk hdid ⟨e, he, htok⟩
  obtain ⟨hnd, hsub⟩ := buildBM25_postingsWF ops token docs hlk
  have hnN : docs.length ≤ (buildBM25 ops).documents.length := by
    have := nodup_subset_length_le hnd hsub
    simpa using this
  have hidf : 0 ≤ (buildBM25 ops).idf docs.length := by
    unfold BM25Index.idf
    refine Real.log_nonneg ?_
    have hcast : (docs.length : ℝ) ≤ ((buildBM25 ops).documents.length : ℝ) :=
      Nat.cast_le.mpr hnN
    have hden : (0 : ℝ) < (docs.length : ℝ) + 0.5 := by positivity
    have hnum : (0 : ℝ) ≤ ((buildBM25 ops).documents.length : ℝ) -
        (docs.length : ℝ) + 0.5 := by linarith
    have := div_nonneg hnum hden.le
    linarith
  have havg : 0 < (buildBM25 ops).avg_doc_len := by
    unfold BM25Index.avg_doc_len
    have hlen1 : 1 ≤ e.2.length := List.length_pos.mpr (List.ne_nil_of_mem htok)
    have htot : e.2.length ≤ (((buildBM25 ops).documents.map (fun d => d.2.length)).sum) :=
      length_le_sum_of_mem (fun d => d.2.length) _ e he
    have hN : 0 < (buildBM25 ops).documents.length :=
      List.length_pos.mpr (List.ne_nil_of_mem he)
    refine div_pos ?_ ?_
    · have h1 : (1 : ℝ) ≤
          ((((buildBM25 ops).documents.map (fun d => d.2.length)).sum : Nat) : ℝ) := by
        exact_mod_cast le_trans hlen1 htot
      linarith
    · exact_mod_cast hN
  have htf : (0 : ℝ) ≤ ((buildBM25 ops).raw_tf token doc_id : ℝ) := Nat.cast_nonneg _
  have hdl : (0 : ℝ) ≤ ((buildBM25 ops).raw_doc_len doc_id : ℝ) := Nat.cast_nonneg _
  have hx : (0 : ℝ) ≤ ((buildBM25 ops).raw_doc_len doc_id : ℝ) /
      (buildBM25 ops).avg_doc_len := div_nonneg hdl havg.le
  unfold BM25Index.bm25_score K1 B
  refine mul_nonneg hidf (div_nonneg (by nlinarith) (by nlinarith))

/-- C3 witness: one document `d1` with content `"apple apple"`; the term
`"apple"` is posted for `d1` and occurs in `d1`'s stored tokens, and its BM25
contribution is non-negative. -/
theorem bm25_per_term_score_nonneg_witness :
    lookupA (buildBM25 [("d1", "apple apple")]).term_docs "apple" = some ["d1"] ∧
    ("d1" ∈ (["d1"] : List String)) ∧
    (("d1", ["apple", "apple"]) ∈ (buildBM25 [("d1", "apple apple")]).documents ∧
      "apple" ∈ (["apple", "apple"] : List String)) ∧
    0 ≤ BM25Index.bm25_score
        ((buildBM25 [("d1", "apple apple")]).raw_tf "apple" "d1" : ℝ)
        ((buildBM25 [("d1", "apple apple")]).idf 1)
        ((buildBM25 [("d1", "apple apple")]).raw_doc_len "d1" : ℝ)
        (buildBM25 [("d1", "apple apple")]).avg_doc_len :=
  ⟨by decide, by decide, ⟨by decide, by decide⟩,
    bm25_per_term_score_nonneg [("d1", "apple apple")] "apple" "d1" ["d1"]
      (by decide) (by decide) ⟨("d1", ["apple", "apple"]), by decide, by decide⟩⟩

end LucAstra
